import Mathlib

/-!
Verification development for the novel-navigator indexing and navigation core.

The definitions below are a shallow embedding of `src/indexer.ts`
(class `NovelIndexer`) and of the toolbar squeeze algorithm in
`src/toolbars/BookToolbar.ts` (method `calculateSqueeze`).

Modelling conventions:
* Obsidian `TFile` values are identified by their `path` string.  Obsidian
  keeps a single `TFile` object per path, so TS reference equality (`===`)
  on files coincides with path equality.
* A JS `Map` is modelled as an association list with JS semantics:
  `set` on an existing key replaces the value in place (keeping the key's
  original position), otherwise it appends; iteration of `values()` is in
  insertion order.
* The TS object graph is cyclic (`ChapterEntry.book` points back at the
  owning `BookEntry`, whose `chapters` array holds the entry).  The cycle
  is broken by removing the back-pointer from `ChapterEntry`; wherever the
  source dereferences `chapter.book`, the embedding carries the owning
  book alongside the chapter (`ChapterRef`, and the `book` field of
  `StageEntry`).
* Pixel widths (DOM measurements) are modelled as rationals.
-/

namespace NovelNavigator

/-- A JS `Map<string, α>` as an insertion-ordered association list. -/
abbrev JsMap (α : Type) : Type := List (String × α)

/-- JS `Map.prototype.set`: replace in place when the key exists, else append. -/
def jsSet {α : Type} (m : JsMap α) (k : String) (v : α) : JsMap α :=
  if m.any (fun kv => decide (kv.1 = k)) then
    m.map (fun kv => if kv.1 = k then (k, v) else kv)
  else
    m ++ [(k, v)]

/-- JS `Map.prototype.get`. -/
def jsGet {α : Type} (m : JsMap α) (k : String) : Option α :=
  (m.find? (fun kv => decide (kv.1 = k))).map (fun kv => kv.2)

/-- JS `Map.prototype.values()` in insertion order. -/
def jsValues {α : Type} (m : JsMap α) : List α := m.map (fun kv => kv.2)

/-- The keys of a JS map in insertion order. -/
def jsKeys {α : Type} (m : JsMap α) : List String := m.map (fun kv => kv.1)

/-- A sequence of `set` operations applied in order. -/
def jsSetAll {α : Type} (m : JsMap α) (l : List (String × α)) : JsMap α :=
  l.foldl (fun m' kv => jsSet m' kv.1 kv.2) m

/-- The front-matter fields read by the indexer (`types.ts` metadata keys).
Absent or wrongly-typed fields are `none`. -/
structure Frontmatter where
  book_title : Option String := none
  chapters : Option (List String) := none
  prologue : Option String := none
  epilogue : Option String := none
  chapter_datetime : Option String := none
  chapter_location : Option String := none
  chapter_outline : Option String := none
  chapter_draft : Option String := none
  chapter_final : Option String := none
deriving DecidableEq

instance : Inhabited Frontmatter := ⟨{}⟩

/-- The collaborator state `buildIndex` reads: the vault's markdown file
list, the metadata cache, and the link-resolution service
(`getFirstLinkpathDest`). -/
structure Env where
  files : List String
  fileCache : String → Option Frontmatter
  getFirstLinkpathDest : String → String → Option String

/-- `"prologue" | "chapter" | "epilogue"` (field `ChapterEntry.kind`). -/
inductive ChapterKind where
  | prologue
  | chapter
  | epilogue
deriving DecidableEq, Inhabited

/-- `type ChapterStage = "info" | "outline" | "draft" | "final"`. -/
inductive ChapterStage where
  | info
  | outline
  | draft
  | final
deriving DecidableEq, Inhabited

/-- `interface ChapterEntry` from `types.ts`, minus the cyclic `book`
back-pointer (see the module docstring). -/
structure ChapterEntry where
  file : String
  index : Nat
  kind : ChapterKind
  chapterNumber : Option Nat
  chapterLabel : String
  datetime : Option String
  location : Option String
  info : Option String
  outline : Option String
  draft : Option String
  final : Option String
deriving DecidableEq, Inhabited

/-- `interface BookEntry` from `types.ts`. -/
structure BookEntry where
  file : String
  title : String
  prologue : Option ChapterEntry
  epilogue : Option ChapterEntry
  chapters : List ChapterEntry
deriving DecidableEq, Inhabited

/-- A chapter paired with its owning book: the embedding of a TS
`ChapterEntry` reference together with its `book` back-pointer. -/
structure ChapterRef where
  book : BookEntry
  chapter : ChapterEntry
deriving DecidableEq

/-- `interface StageEntry` from `types.ts`; `book` carries the TS
`chapter.book` back-pointer. -/
structure StageEntry where
  file : String
  book : BookEntry
  chapter : ChapterEntry
  stage : ChapterStage
deriving DecidableEq, Inhabited

/-- `interface NovelIndex` from `types.ts`. -/
structure NovelIndex where
  books : JsMap BookEntry
  chapters : JsMap ChapterRef
  stages : JsMap StageEntry
deriving DecidableEq

/-- `interface PendingBook` from `types.ts`. -/
structure PendingBook where
  bookFile : String
  title : String
  prologueFile : Option String
  epilogueFile : Option String
  chapterFiles : List String
deriving DecidableEq

/-- `type NavigationTarget` from `types.ts`. -/
inductive NavigationTarget where
  | file (file : String)
  | disabled
deriving DecidableEq

/-- `type ToolbarMode` from `types.ts` (all four declared variants; the
resolver never constructs `chapterInfo`). -/
inductive ToolbarMode where
  | none
  | bookInfo (book : BookEntry)
  | chapterInfo (chapter : ChapterEntry)
  | chapterStage (stage : StageEntry)
deriving DecidableEq

/-- `interface ChapterNavigationTargets` from `types.ts`. -/
structure ChapterNavigationTargets where
  outline : NavigationTarget
  draft : NavigationTarget
  final : NavigationTarget
  previous : NavigationTarget
  next : NavigationTarget
  bookInfo : NavigationTarget
  chapterInfo : NavigationTarget
deriving DecidableEq

/-- The bracket-stripping in `resolveWikiLink`: the regex replace with
pattern `^\[\[|]]$` (global) removes one leading `[[` and one trailing
`]]`.  The prefix/suffix tests are phrased on the character lists (same
semantics as `String.startsWith`/`endsWith`, but kernel-reducible). -/
def stripWiki (link : String) : String :=
  let l1 := if "[[".toList.isPrefixOf link.toList then link.drop 2 else link
  if "]]".toList.isSuffixOf l1.toList then l1.dropRight 2 else l1

/-- `NovelIndexer.resolveWikiLink`.  A missing or empty link is falsy in
the TS guard `if (!link)`. -/
def resolveWikiLink (env : Env) (link : Option String) (sourceFile : String) : Option String :=
  match link with
  | none => none
  | some l => if l = "" then none else env.getFirstLinkpathDest (stripWiki l) sourceFile

/-- `NovelIndexer.getChapterKind`.  The TS `===` compares `TFile` objects,
which coincides with path equality (one `TFile` per path). -/
def getChapterKind (file : String) (pending : PendingBook) : ChapterKind :=
  if pending.prologueFile = some file then ChapterKind.prologue
  else if pending.epilogueFile = some file then ChapterKind.epilogue
  else ChapterKind.chapter

/-- Step 1 of `buildIndex`: discover book info files.  A document
qualifies when `book_title` is truthy (present and non-empty) and
`chapters` is an array. -/
def discoverPendingBooks (env : Env) : List PendingBook :=
  env.files.filterMap fun file =>
    match env.fileCache file with
    | none => none
    | some fm =>
      match fm.book_title, fm.chapters with
      | some title, some chapterLinks =>
        if title = "" then none
        else
          some
            { bookFile := file
              title := title
              prologueFile := resolveWikiLink env fm.prologue file
              epilogueFile := resolveWikiLink env fm.epilogue file
              chapterFiles :=
                chapterLinks.filterMap fun link => resolveWikiLink env (some link) file }
      | _, _ => none

/-- `[pending.prologueFile, ...pending.chapterFiles, pending.epilogueFile]`
with the falsy (absent) entries filtered out. -/
def allChapterFiles (p : PendingBook) : List String :=
  p.prologueFile.toList ++ p.chapterFiles ++ p.epilogueFile.toList

/-- One `ChapterEntry` as constructed in step 2 of `buildIndex` (before
`assignLabelsAndNumbers` runs). -/
def mkChapter (env : Env) (p : PendingBook) (chapterFile : String) (index : Nat) :
    ChapterEntry :=
  let fm := (env.fileCache chapterFile).getD {}
  { file := chapterFile
    index := index
    kind := getChapterKind chapterFile p
    chapterNumber := none
    chapterLabel := ""
    datetime := fm.chapter_datetime
    location := fm.chapter_location
    info := some chapterFile
    outline := resolveWikiLink env fm.chapter_outline chapterFile
    draft := resolveWikiLink env fm.chapter_draft chapterFile
    final := resolveWikiLink env fm.chapter_final chapterFile }

/-- The `allChapterFiles.forEach((chapterFile, index) => ...)` loop:
each file at its 0-based position. -/
def mkChaptersFrom (env : Env) (p : PendingBook) : Nat → List String → List ChapterEntry
  | _, [] => []
  | i, f :: rest => mkChapter env p f i :: mkChaptersFrom env p (i + 1) rest

/-- The loop body of `NovelIndexer.assignLabelsAndNumbers`, with the
running `chapterCounter` made explicit. -/
def assignGo (counter : Nat) : List ChapterEntry → List ChapterEntry
  | [] => []
  | c :: rest =>
    match c.kind with
    | ChapterKind.prologue =>
        { c with chapterLabel := "Prologue" } :: assignGo counter rest
    | ChapterKind.epilogue =>
        { c with chapterLabel := "Epilogue" } :: assignGo counter rest
    | ChapterKind.chapter =>
        { c with
          chapterNumber := some (counter + 1)
          chapterLabel := "Chapter " ++ toString (counter + 1) } :: assignGo (counter + 1) rest

/-- `NovelIndexer.assignLabelsAndNumbers` (counter starts at 0). -/
def assignLabelsAndNumbers (chs : List ChapterEntry) : List ChapterEntry :=
  assignGo 0 chs

/-- The final value of `book.prologue` / `book.epilogue`: the TS loop
assigns the field for every entry of the given kind, so the last one
wins. -/
def lastWithKind (chs : List ChapterEntry) (k : ChapterKind) : Option ChapterEntry :=
  (chs.filter fun c => decide (c.kind = k)).getLast?

/-- Step 2 of `buildIndex` for one pending book: the fully constructed
`BookEntry` as it stands after `assignLabelsAndNumbers` has run (the TS
code mutates the shared chapter objects in place, so the final state of
the book, of the `chapters` map entries and of `book.prologue`/`epilogue`
is the labelled one). -/
def buildBook (env : Env) (p : PendingBook) : BookEntry :=
  let chs := assignLabelsAndNumbers (mkChaptersFrom env p 0 (allChapterFiles p))
  { file := p.bookFile
    title := p.title
    prologue := lastWithKind chs ChapterKind.prologue
    epilogue := lastWithKind chs ChapterKind.epilogue
    chapters := chs }

/-- The `books.set(book.file.path, book)` inserts, in book order. -/
def buildBooksMap (bs : List BookEntry) : JsMap BookEntry :=
  jsSetAll [] (bs.map fun b => (b.file, b))

/-- The `chapters.set(chapterFile.path, chapter)` inserts: for each book
in order, for each of its chapters in sequence order. -/
def buildChaptersMap (bs : List BookEntry) : JsMap ChapterRef :=
  jsSetAll [] (bs.flatMap fun b => b.chapters.map fun c => (c.file, ChapterRef.mk b c))

/-- The `potentialStages` array of step 3 of `buildIndex`:
outline, draft, final, in that order. -/
def potentialStages (c : ChapterEntry) : List (ChapterStage × Option String) :=
  [(ChapterStage.outline, c.outline), (ChapterStage.draft, c.draft), (ChapterStage.final, c.final)]

/-- The `stages.set(...)` operations contributed by one chapter, in
order. -/
def stageRegistrations (cr : ChapterRef) : List (String × StageEntry) :=
  (potentialStages cr.chapter).filterMap fun s =>
    match s.2 with
    | some f =>
        some (f, { file := f, book := cr.book, chapter := cr.chapter, stage := s.1 })
    | none => none

/-- Step 3 of `buildIndex`: iterate `chapters.values()` in insertion
order and register each resolved outline/draft/final stage. -/
def buildStages (crs : List ChapterRef) : JsMap StageEntry :=
  jsSetAll [] (crs.flatMap stageRegistrations)

/-- `NovelIndexer.buildIndex` (the pure snapshot construction; the
publication step `this.lastIndex = index` is modelled by
`runBuildIndex` below). -/
def buildIndex (env : Env) : NovelIndex :=
  let builtBooks := (discoverPendingBooks env).map (buildBook env)
  let books := buildBooksMap builtBooks
  let chapters := buildChaptersMap builtBooks
  let stages := buildStages (jsValues chapters)
  { books := books, chapters := chapters, stages := stages }

/-- The vault collaborator as seen by the whole `buildIndex` call:
`getMarkdownFiles()` can fail (`files = none` models the enumeration
throwing). -/
structure IndexerEnv where
  files : Option (List String)
  fileCache : String → Option Frontmatter
  getFirstLinkpathDest : String → String → Option String

/-- The successful-enumeration environment. -/
def IndexerEnv.toEnv (e : IndexerEnv) (fs : List String) : Env :=
  { files := fs
    fileCache := e.fileCache
    getFirstLinkpathDest := e.getFirstLinkpathDest }

/-- One `buildIndex()` call against the cached `lastIndex` state: on
enumeration failure the exception propagates before anything is
assembled and `lastIndex` is untouched; on success the fully assembled
snapshot is published by the single assignment `this.lastIndex = index`
and also returned.  Result: (new `lastIndex` state, returned value). -/
def runBuildIndex (e : IndexerEnv) (lastIndex : Option NovelIndex) :
    Option NovelIndex × Option NovelIndex :=
  match e.files with
  | none => (lastIndex, none)
  | some fs =>
    let idx := buildIndex (e.toEnv fs)
    (some idx, some idx)

/-- `NovelIndexer.resolveToolbarModeForFile`.  The TS non-null assertion
`chapter.info!` is modelled by `Option.getD chapter.file`; construction
always sets `info` to the chapter's own file, so the default is never
used on an index-built chapter. -/
def resolveToolbarModeForFile (lastIndex : Option NovelIndex) (file : String) : ToolbarMode :=
  match lastIndex with
  | none => ToolbarMode.none
  | some idx =>
    match jsGet idx.stages file with
    | some stage => ToolbarMode.chapterStage stage
    | none =>
      match jsGet idx.chapters file with
      | some cr =>
          ToolbarMode.chapterStage
            { file := cr.chapter.info.getD cr.chapter.file
              book := cr.book
              chapter := cr.chapter
              stage := ChapterStage.info }
      | none =>
        match jsGet idx.books file with
        | some book => ToolbarMode.bookInfo book
        | none => ToolbarMode.none

/-- The dynamic property access `chapter[stage]`. -/
def stageField (c : ChapterEntry) : ChapterStage → Option String
  | ChapterStage.info => c.info
  | ChapterStage.outline => c.outline
  | ChapterStage.draft => c.draft
  | ChapterStage.final => c.final

/-- `NovelIndexer.getStageTarget`. -/
def getStageTarget (c : ChapterEntry) (s : ChapterStage) : NavigationTarget :=
  match stageField c s with
  | some f => NavigationTarget.file f
  | none => NavigationTarget.disabled

/-- `NovelIndexer.getBookInfoTarget`.  The TS body guards on the
truthiness of `bookEntry.file`, but that field is a non-optional `TFile`
(an object, hence always truthy), so the `disabled` branch is dead code
and the embedding returns the file unconditionally. -/
def getBookInfoTarget (book : BookEntry) : NavigationTarget :=
  NavigationTarget.file book.file

/-- `"previous" | "next"`. -/
inductive NavDirection where
  | previous
  | next
deriving DecidableEq

/-- `NovelIndexer.getAdjacentChapterTarget`.  `book` is the TS
`chapter.book` back-pointer. -/
def getAdjacentChapterTarget (book : BookEntry) (chapter : ChapterEntry)
    (stage : ChapterStage) (direction : NavDirection) : NavigationTarget :=
  let chapters := book.chapters
  let delta : Int := match direction with
    | NavDirection.next => 1
    | NavDirection.previous => -1
  let targetIndex : Int := (chapter.index : Int) + delta
  if targetIndex < 0 ∨ (chapters.length : Int) ≤ targetIndex then
    NavigationTarget.disabled
  else
    match chapters[targetIndex.toNat]? with
    | none => NavigationTarget.disabled
    | some targetChapter =>
      match stageField targetChapter stage with
      | some f => NavigationTarget.file f
      | none => NavigationTarget.disabled

/-- `NovelIndexer.getNavigationTargets`.  The TS method reads
`this.lastIndex` only to log a warning when it is still null; the
computation itself uses nothing but the passed `StageEntry`'s object
graph, so the `lastIndex` parameter is otherwise unused. -/
def getNavigationTargets (lastIndex : Option NovelIndex) (stage : StageEntry) :
    ChapterNavigationTargets :=
  let chapter := stage.chapter
  let book := stage.book
  { bookInfo := getBookInfoTarget book
    chapterInfo := getStageTarget chapter ChapterStage.info
    outline := getStageTarget chapter ChapterStage.outline
    draft := getStageTarget chapter ChapterStage.draft
    final := getStageTarget chapter ChapterStage.final
    previous := getAdjacentChapterTarget book chapter stage.stage NavDirection.previous
    next := getAdjacentChapterTarget book chapter stage.stage NavDirection.next }

/-! ## Toolbar layout: `BookToolbar.calculateSqueeze` -/

/-- The cached width of the label at index `i` of `labels`:
`this.getCachedWidth(labels[idx])`.  `w` is the fully populated
`labelCache` (including the `"__overflow__"` entry), as a total
function. -/
def labelWidthAt (w : String → ℚ) (labels : List String) (i : Nat) : ℚ :=
  w (labels.getD i "")

/-- The `getWidth` helper of `calculateSqueeze`: sum of cached widths over
an index list. -/
def widthSum (w : String → ℚ) (labels : List String) (indices : List Nat) : ℚ :=
  (indices.map (labelWidthAt w labels)).sum

/-- The initial-split loop of `calculateSqueeze`: pop indices off the end
of `leftIndices` onto the front of `rightIndices` while the accumulated
right width is below half the total and more than one index remains on
the left. -/
def splitGo (w : String → ℚ) (labels : List String) (totalNatural : ℚ) :
    List Nat → List Nat → ℚ → List Nat × List Nat
  | left, right, curRW =>
    if h : curRW < totalNatural / 2 ∧ 1 < left.length then
      match left.getLast? with
      | some idx =>
          splitGo w labels totalNatural left.dropLast (idx :: right)
            (curRW + labelWidthAt w labels idx)
      | none => (left, right)
    else (left, right)
termination_by left _ _ => left.length
decreasing_by
  simp only [List.length_dropLast]
  omega

/-- The `pullFromLeft` decision inside the squeeze loop. -/
def squeezePullFromLeft (w : String → ℚ) (labels : List String)
    (left right : List Nat) : Bool :=
  if 0 < left.length ∧ right.length = 0 then true
  else if left.length = 0 ∧ 0 < right.length then false
  else decide (widthSum w labels right ≤ widthSum w labels left)

theorem squeezePullFromLeft_true_ne_nil {w labels left right}
    (hne : ¬(left = [] ∧ right = []))
    (h : squeezePullFromLeft w labels left right = true) : left ≠ [] := by
  intro hl
  subst hl
  simp only [squeezePullFromLeft, List.length_nil] at h
  rcases hr : right with _ | ⟨x, xs⟩
  · exact hne ⟨rfl, hr⟩
  · subst hr
    simp at h

theorem squeezePullFromLeft_false_ne_nil {w labels left right}
    (hne : ¬(left = [] ∧ right = []))
    (h : squeezePullFromLeft w labels left right = false) : right ≠ [] := by
  intro hr
  subst hr
  simp only [squeezePullFromLeft, List.length_nil] at h
  rcases hl : left with _ | ⟨x, xs⟩
  · exact hne ⟨hl, rfl⟩
  · subst hl
    simp at h

/-- The squeeze loop of `calculateSqueeze`: while the visible width plus
the overflow button width plus the buffer exceeds the container, drop one
index from the wider side (left: pop from the end; right: shift from the
front), breaking when both sides are exhausted. -/
def squeezeGo (w : String → ℚ) (labels : List String)
    (ovrWidth buffer containerWidth : ℚ) :
    List Nat → List Nat → List Nat × List Nat
  | left, right =>
    if containerWidth <
        widthSum w labels left + widthSum w labels right + ovrWidth + buffer then
      if hne : left = [] ∧ right = [] then (left, right)
      else
        if hpull : squeezePullFromLeft w labels left right then
          squeezeGo w labels ovrWidth buffer containerWidth left.dropLast right
        else
          squeezeGo w labels ovrWidth buffer containerWidth left (right.drop 1)
    else (left, right)
termination_by left right => left.length + right.length
decreasing_by
  · have := squeezePullFromLeft_true_ne_nil hne hpull
    have hlen : left.length ≠ 0 := by
      intro h0
      exact this (List.length_eq_zero.mp h0)
    simp only [List.length_dropLast]
    omega
  · have := squeezePullFromLeft_false_ne_nil hne (by simpa using hpull)
    have hlen : right.length ≠ 0 := by
      intro h0
      exact this (List.length_eq_zero.mp h0)
    simp only [List.length_drop]
    omega

/-- The return type of `calculateSqueeze`.  `hideStart`/`hideEnd` are the
TS `number | null` fields; they are integers because the TS arithmetic
`rightIndices[0] - 1` / `labels.length - 1` can produce `-1`. -/
structure SqueezeResult where
  hideStart : Option Int
  hideEnd : Option Int
  showOverflow : Bool
deriving DecidableEq

/-- `BookToolbar.calculateSqueeze`. -/
def calculateSqueeze (w : String → ℚ) (labels : List String)
    (containerWidth : ℚ) : SqueezeResult :=
  let buffer : ℚ := 10
  let ovrWidth : ℚ := w "__overflow__"
  let totalNatural : ℚ := (labels.map w).sum
  if totalNatural + buffer ≤ containerWidth then
    { hideStart := none, hideEnd := none, showOverflow := false }
  else
    let split := splitGo w labels totalNatural (List.range labels.length) [] 0
    let squeezed := squeezeGo w labels ovrWidth buffer containerWidth split.1 split.2
    let hideStart : Int :=
      match squeezed.1.getLast? with
      | some i => (i : Int) + 1
      | none => 0
    let hideEnd : Int :=
      match squeezed.2.head? with
      | some i => (i : Int) - 1
      | none => (labels.length : Int) - 1
    { hideStart := if hideStart ≤ hideEnd then some hideStart else none
      hideEnd := if hideStart ≤ hideEnd then some hideEnd else none
      showOverflow := true }

/-- The hidden-state test used by `applyLayout`: a button index `i` is
hidden iff the overflow is shown and `hideStart ≤ i ≤ hideEnd`. -/
def isHiddenIdx (r : SqueezeResult) (i : Nat) : Bool :=
  r.showOverflow &&
    match r.hideStart, r.hideEnd with
    | some s, some e => decide (s ≤ (i : Int)) && decide ((i : Int) ≤ e)
    | _, _ => false

/-- The total cached width of the buttons left visible by a squeeze
result. -/
def visibleWidth (w : String → ℚ) (labels : List String) (r : SqueezeResult) : ℚ :=
  widthSum w labels ((List.range labels.length).filter fun i => !(isHiddenIdx r i))

/-- Fuel-bounded mirror of `squeezeGo`: `none` when the loop would need
more than `fuel` removal iterations. -/
def squeezeGoFuel (w : String → ℚ) (labels : List String)
    (ovrWidth buffer containerWidth : ℚ) :
    Nat → List Nat → List Nat → Option (List Nat × List Nat)
  | 0, left, right =>
    if containerWidth <
        widthSum w labels left + widthSum w labels right + ovrWidth + buffer then
      if left = [] ∧ right = [] then some (left, right) else none
    else some (left, right)
  | fuel + 1, left, right =>
    if containerWidth <
        widthSum w labels left + widthSum w labels right + ovrWidth + buffer then
      if left = [] ∧ right = [] then some (left, right)
      else
        if squeezePullFromLeft w labels left right then
          squeezeGoFuel w labels ovrWidth buffer containerWidth fuel left.dropLast right
        else
          squeezeGoFuel w labels ovrWidth buffer containerWidth fuel left (right.drop 1)
    else some (left, right)

/-- Fuel-bounded mirror of `calculateSqueeze`. -/
def calculateSqueezeFuel (w : String → ℚ) (labels : List String)
    (containerWidth : ℚ) (fuel : Nat) : Option SqueezeResult :=
  let buffer : ℚ := 10
  let ovrWidth : ℚ := w "__overflow__"
  let totalNatural : ℚ := (labels.map w).sum
  if totalNatural + buffer ≤ containerWidth then
    some { hideStart := none, hideEnd := none, showOverflow := false }
  else
    let split := splitGo w labels totalNatural (List.range labels.length) [] 0
    match squeezeGoFuel w labels ovrWidth buffer containerWidth fuel split.1 split.2 with
    | none => none
    | some squeezed =>
      let hideStart : Int :=
        match squeezed.1.getLast? with
        | some i => (i : Int) + 1
        | none => 0
      let hideEnd : Int :=
        match squeezed.2.head? with
        | some i => (i : Int) - 1
        | none => (labels.length : Int) - 1
      some
        { hideStart := if hideStart ≤ hideEnd then some hideStart else none
          hideEnd := if hideStart ≤ hideEnd then some hideEnd else none
          showOverflow := true }

/-! ## Concrete vault environments used by the witnesses -/

/-- A small concrete vault: one book with a prologue, two chapters (the
first has an outline stage), and an epilogue. -/
def envEx : Env :=
  { files := ["book.md", "p.md", "c1.md", "c2.md", "e.md"]
    fileCache := fun f =>
      if f = "book.md" then
        some { book_title := some "My Novel", chapters := some ["[[c1]]", "c2"],
               prologue := some "p", epilogue := some "e" }
      else if f = "c1.md" then some { chapter_outline := some "o1" }
      else if f = "p.md" ∨ f = "c2.md" ∨ f = "e.md" then some {}
      else none
    getFirstLinkpathDest := fun l _ =>
      if l = "p" then some "p.md"
      else if l = "c1" then some "c1.md"
      else if l = "c2" then some "c2.md"
      else if l = "e" then some "e.md"
      else if l = "o1" then some "o1.md"
      else none }

/-- The single book built from `envEx`. -/
def bookEx : BookEntry := (jsValues (buildIndex envEx).books).headI

/-- The single stage entry (c1's outline) built from `envEx`. -/
def stageEx : StageEntry := (jsValues (buildIndex envEx).stages).headI

/-- An enumeration-failure environment (the document-listing collaborator
throws). -/
def envFailEx : IndexerEnv :=
  { files := none
    fileCache := fun _ => none
    getFirstLinkpathDest := fun _ _ => none }

/-- A standalone stage entry used to exercise `getNavigationTargets`
with no index built. -/
def stageNoIndexEx : StageEntry :=
  { file := "o1"
    book := { file := "b", title := "T", prologue := none, epilogue := none, chapters := [] }
    chapter :=
      { file := "ch1", index := 0, kind := ChapterKind.chapter, chapterNumber := some 1
        chapterLabel := "Chapter 1", datetime := none, location := none
        info := some "ch1", outline := some "o1", draft := none, final := none }
    stage := ChapterStage.outline }

/-- A fully populated width cache with constant widths, for the layout
witnesses. -/
def widthEx : String → ℚ := fun _ => 10

/-! ## JS map lemmas -/

theorem find?_map_replace_ne {α : Type} (m : JsMap α) (k : String) (v : α) (k' : String)
    (hne : k' ≠ k) :
    (m.map fun kv => if kv.1 = k then (k, v) else kv).find? (fun kv => decide (kv.1 = k')) =
      m.find? (fun kv => decide (kv.1 = k')) := by
  induction m with
  | nil => rfl
  | cons kv rest ih =>
    simp only [List.map_cons]
    by_cases hk : kv.1 = k
    · rw [if_pos hk]
      rw [List.find?_cons_of_neg _ (by simp [hne]; exact fun h => hne h.symm),
        List.find?_cons_of_neg _ (by simp [hk]; exact fun h => hne h.symm)]
      exact ih
    · rw [if_neg hk]
      by_cases hk' : kv.1 = k'
      · rw [List.find?_cons_of_pos _ (by simp [hk']), List.find?_cons_of_pos _ (by simp [hk'])]
      · rw [List.find?_cons_of_neg _ (by simp [hk']), List.find?_cons_of_neg _ (by simp [hk'])]
        exact ih

theorem find?_map_replace_eq {α : Type} (m : JsMap α) (k : String) (v : α)
    (hany : m.any (fun kv => decide (kv.1 = k)) = true) :
    (m.map fun kv => if kv.1 = k then (k, v) else kv).find? (fun kv => decide (kv.1 = k)) =
      some (k, v) := by
  induction m with
  | nil => simp at hany
  | cons kv rest ih =>
    simp only [List.any_cons, Bool.or_eq_true] at hany
    simp only [List.map_cons]
    by_cases hk : kv.1 = k
    · rw [if_pos hk]
      rw [List.find?_cons_of_pos _ (by simp)]
    · rw [if_neg hk]
      rw [List.find?_cons_of_neg _ (by simp [hk])]
      apply ih
      rcases hany with h | h
      · simp [hk] at h
      · exact h

theorem jsGet_jsSet {α : Type} (m : JsMap α) (k : String) (v : α) (k' : String) :
    jsGet (jsSet m k v) k' = if k' = k then some v else jsGet m k' := by
  unfold jsSet jsGet
  by_cases hany : m.any (fun kv => decide (kv.1 = k)) = true
  · rw [if_pos hany]
    by_cases hk' : k' = k
    · subst hk'
      rw [if_pos rfl, find?_map_replace_eq m k' v hany]
      rfl
    · rw [if_neg hk', find?_map_replace_ne m k v k' hk']
  · rw [if_neg hany]
    rw [List.find?_append]
    by_cases hk' : k' = k
    · subst hk'
      rw [if_pos rfl]
      have hnone : m.find? (fun kv => decide (kv.1 = k')) = none := by
        rw [List.find?_eq_none]
        intro x hx
        simp only [decide_eq_true_eq]
        intro hxk
        rw [List.any_eq_true] at hany
        exact hany ⟨x, hx, by simp [hxk]⟩
      rw [hnone, List.find?_cons_of_pos _ (by simp)]
      rfl
    · rw [if_neg hk']
      have hsing : ([(k, v)].find? (fun kv => decide (kv.1 = k'))) = none := by
        rw [List.find?_eq_none]
        intro x hx
        simp only [List.mem_singleton] at hx
        subst hx
        simp only [decide_eq_true_eq]
        exact fun h => hk' h.symm
      rw [hsing]
      cases m.find? (fun kv => decide (kv.1 = k')) <;> rfl

theorem jsSetAll_cons {α : Type} (m : JsMap α) (kv : String × α) (l : List (String × α)) :
    jsSetAll m (kv :: l) = jsSetAll (jsSet m kv.1 kv.2) l := rfl

theorem jsGet_jsSetAll {α : Type} (m : JsMap α) (l : List (String × α)) (k : String) :
    jsGet (jsSetAll m l) k =
      match (l.filter fun kv => decide (kv.1 = k)).getLast? with
      | some kv => some kv.2
      | none => jsGet m k := by
  induction l generalizing m with
  | nil => rfl
  | cons kv rest ih =>
    rw [jsSetAll_cons, ih]
    by_cases hk : kv.1 = k
    · rw [List.filter_cons_of_pos (by simp [hk])]
      cases hfr : rest.filter (fun kv => decide (kv.1 = k)) with
      | nil =>
        show jsGet (jsSet m kv.1 kv.2) k = some kv.2
        rw [jsGet_jsSet, if_pos hk.symm]
      | cons x xs =>
        rw [List.getLast?_cons_cons]
        cases hgl : (x :: xs).getLast? with
        | none =>
          rw [List.getLast?_eq_none_iff] at hgl
          exact absurd hgl (List.cons_ne_nil x xs)
        | some y => rfl
    · rw [List.filter_cons_of_neg (by simp [hk])]
      cases hfr : rest.filter (fun kv => decide (kv.1 = k)) with
      | nil =>
        show jsGet (jsSet m kv.1 kv.2) k = jsGet m k
        rw [jsGet_jsSet, if_neg (fun h => hk h.symm)]
      | cons x xs =>
        cases hgl : (x :: xs).getLast? with
        | none =>
          rw [List.getLast?_eq_none_iff] at hgl
          exact absurd hgl (List.cons_ne_nil x xs)
        | some y => rfl

theorem mem_of_jsGet_eq_some {α : Type} {m : JsMap α} {k : String} {v : α}
    (h : jsGet m k = some v) : (k, v) ∈ m := by
  unfold jsGet at h
  cases hf : m.find? (fun kv => decide (kv.1 = k)) with
  | none => rw [hf] at h; simp at h
  | some kv =>
    rw [hf] at h
    have h2 : kv.2 = v := by simpa using h
    have hm := List.mem_of_find?_eq_some hf
    have hp := List.find?_some hf
    simp only [decide_eq_true_eq] at hp
    have : kv = (k, v) := by
      cases kv
      simp_all
    rw [← this]
    exact hm

theorem mem_of_mem_jsSet {α : Type} {m : JsMap α} {k : String} {v : α} {p : String × α}
    (h : p ∈ jsSet m k v) : p ∈ m ∨ p = (k, v) := by
  unfold jsSet at h
  by_cases hany : m.any (fun kv => decide (kv.1 = k)) = true
  · rw [if_pos hany] at h
    rcases List.mem_map.mp h with ⟨kv, hkv, hfkv⟩
    by_cases hk : kv.1 = k
    · rw [if_pos hk] at hfkv
      right
      exact hfkv.symm
    · rw [if_neg hk] at hfkv
      left
      exact hfkv ▸ hkv
  · rw [if_neg hany] at h
    rcases List.mem_append.mp h with h' | h'
    · left; exact h'
    · right; exact List.mem_singleton.mp h'

theorem mem_of_mem_jsSetAll {α : Type} {m : JsMap α} {l : List (String × α)} {p : String × α}
    (h : p ∈ jsSetAll m l) : p ∈ m ∨ p ∈ l := by
  induction l generalizing m with
  | nil => left; exact h
  | cons kv rest ih =>
    rw [jsSetAll_cons] at h
    rcases ih h with h' | h'
    · rcases mem_of_mem_jsSet h' with h'' | h''
      · left; exact h''
      · right; rw [h'']; exact List.mem_cons_self _ _
    · right; exact List.mem_cons_of_mem _ h'

theorem mem_jsValues {α : Type} {m : JsMap α} {v : α} (h : v ∈ jsValues m) :
    ∃ k, (k, v) ∈ m := by
  rcases List.mem_map.mp h with ⟨kv, hkv, hv⟩
  exact ⟨kv.1, by cases kv; simp_all⟩

theorem jsKeys_jsSet_nodup {α : Type} {m : JsMap α} (k : String) (v : α)
    (h : (jsKeys m).Nodup) : (jsKeys (jsSet m k v)).Nodup := by
  unfold jsSet jsKeys
  by_cases hany : m.any (fun kv => decide (kv.1 = k)) = true
  · rw [if_pos hany]
    have heq : (m.map fun kv => if kv.1 = k then (k, v) else kv).map (fun kv => kv.1) =
        m.map fun kv => kv.1 := by
      rw [List.map_map]
      apply List.map_congr_left
      intro kv _
      by_cases hk : kv.1 = k
      · simp [hk]
      · simp [hk]
    rw [heq]
    exact h
  · rw [if_neg hany, List.map_append]
    simp only [List.map_cons, List.map_nil]
    rw [List.nodup_append]
    refine ⟨h, List.nodup_singleton k, ?_⟩
    intro a ha hb
    simp only [List.mem_singleton] at hb
    subst hb
    rcases List.mem_map.mp ha with ⟨kv, hkv, hfst⟩
    rw [List.any_eq_true] at hany
    exact hany ⟨kv, hkv, by simp [hfst]⟩

theorem jsKeys_jsSetAll_nodup {α : Type} {m : JsMap α} {l : List (String × α)}
    (h : (jsKeys m).Nodup) : (jsKeys (jsSetAll m l)).Nodup := by
  induction l generalizing m with
  | nil => exact h
  | cons kv rest ih =>
    rw [jsSetAll_cons]
    exact ih (jsKeys_jsSet_nodup kv.1 kv.2 h)

/-! ## Chapter construction lemmas -/

theorem mkChaptersFrom_map_file (env : Env) (p : PendingBook) :
    ∀ (i : Nat) (fs : List String),
      (mkChaptersFrom env p i fs).map (fun c => c.file) = fs := by
  intro i fs
  induction fs generalizing i with
  | nil => rfl
  | cons f rest ih =>
    simp only [mkChaptersFrom, List.map_cons, mkChapter]
    rw [ih]

theorem mkChaptersFrom_map_index (env : Env) (p : PendingBook) :
    ∀ (i : Nat) (fs : List String),
      (mkChaptersFrom env p i fs).map (fun c => c.index) = List.range' i fs.length := by
  intro i fs
  induction fs generalizing i with
  | nil => rfl
  | cons f rest ih =>
    simp only [mkChaptersFrom, List.map_cons, mkChapter, List.length_cons, List.range'_succ]
    rw [ih]

theorem mkChaptersFrom_mem (env : Env) (p : PendingBook) :
    ∀ (i : Nat) (fs : List String) (c : ChapterEntry), c ∈ mkChaptersFrom env p i fs →
      c.chapterNumber = none ∧ c.info = some c.file := by
  intro i fs
  induction fs generalizing i with
  | nil => intro c hc; simp [mkChaptersFrom] at hc
  | cons f rest ih =>
    intro c hc
    simp only [mkChaptersFrom, List.mem_cons] at hc
    rcases hc with hc | hc
    · subst hc
      exact ⟨rfl, rfl⟩
    · exact ih (i + 1) c hc

theorem assignGo_map_file (n : Nat) (l : List ChapterEntry) :
    (assignGo n l).map (fun c => c.file) = l.map (fun c => c.file) := by
  induction l generalizing n with
  | nil => rfl
  | cons c rest ih =>
    simp only [assignGo]
    cases c.kind <;> simp only [List.map_cons, ih]

theorem assignGo_map_index (n : Nat) (l : List ChapterEntry) :
    (assignGo n l).map (fun c => c.index) = l.map (fun c => c.index) := by
  induction l generalizing n with
  | nil => rfl
  | cons c rest ih =>
    simp only [assignGo]
    cases c.kind <;> simp only [List.map_cons, ih]

theorem assignGo_mem (n : Nat) (l : List ChapterEntry) (c : ChapterEntry)
    (h : c ∈ assignGo n l) :
    ∃ c₀ ∈ l, c.file = c₀.file ∧ c.index = c₀.index ∧ c.kind = c₀.kind ∧
      c.info = c₀.info ∧ c.outline = c₀.outline ∧ c.draft = c₀.draft ∧
      c.final = c₀.final := by
  induction l generalizing n with
  | nil => simp [assignGo] at h
  | cons c₁ rest ih =>
    simp only [assignGo] at h
    cases hk : c₁.kind with
    | prologue =>
      rw [hk] at h
      rcases List.mem_cons.mp h with hc | hc
      · subst hc
        exact ⟨c₁, List.mem_cons_self _ _, rfl, rfl, hk.symm, rfl, rfl, rfl, rfl⟩
      · rcases ih n hc with ⟨c₀, hc₀, hrest⟩
        exact ⟨c₀, List.mem_cons_of_mem _ hc₀, hrest⟩
    | epilogue =>
      rw [hk] at h
      rcases List.mem_cons.mp h with hc | hc
      · subst hc
        exact ⟨c₁, List.mem_cons_self _ _, rfl, rfl, hk.symm, rfl, rfl, rfl, rfl⟩
      · rcases ih n hc with ⟨c₀, hc₀, hrest⟩
        exact ⟨c₀, List.mem_cons_of_mem _ hc₀, hrest⟩
    | chapter =>
      rw [hk] at h
      rcases List.mem_cons.mp h with hc | hc
      · subst hc
        exact ⟨c₁, List.mem_cons_self _ _, rfl, rfl, hk.symm, rfl, rfl, rfl, rfl⟩
      · rcases ih (n + 1) hc with ⟨c₀, hc₀, hrest⟩
        exact ⟨c₀, List.mem_cons_of_mem _ hc₀, hrest⟩

theorem assignGo_numbers (l : List ChapterEntry) (n : Nat)
    (hnone : ∀ c ∈ l, c.chapterNumber = none) :
    ((assignGo n l).filter fun c => decide (c.kind = ChapterKind.chapter)).map
        (fun c => c.chapterNumber) =
      (List.range' (n + 1)
        ((l.filter fun c => decide (c.kind = ChapterKind.chapter)).length)).map some := by
  induction l generalizing n with
  | nil => rfl
  | cons c rest ih =>
    have hc := hnone c (List.mem_cons_self _ _)
    have hrest : ∀ c' ∈ rest, c'.chapterNumber = none :=
      fun c' hc' => hnone c' (List.mem_cons_of_mem _ hc')
    simp only [assignGo]
    cases hk : c.kind with
    | prologue =>
      rw [List.filter_cons_of_neg (by simp [hk]), List.filter_cons_of_neg (by simp [hk])]
      exact ih n hrest
    | epilogue =>
      rw [List.filter_cons_of_neg (by simp [hk]), List.filter_cons_of_neg (by simp [hk])]
      exact ih n hrest
    | chapter =>
      rw [List.filter_cons_of_pos (by simp [hk]), List.filter_cons_of_pos (by simp [hk])]
      simp only [List.map_cons, List.length_cons, List.range'_succ]
      rw [ih (n + 1) hrest]

theorem assignGo_labels (l : List ChapterEntry) (n : Nat)
    (hnone : ∀ c ∈ l, c.chapterNumber = none) :
    ∀ c ∈ assignGo n l,
      (c.kind = ChapterKind.prologue →
        c.chapterNumber = none ∧ c.chapterLabel = "Prologue")
      ∧ (c.kind = ChapterKind.epilogue →
        c.chapterNumber = none ∧ c.chapterLabel = "Epilogue")
      ∧ (c.kind = ChapterKind.chapter →
        ∃ nn, c.chapterNumber = some nn ∧ c.chapterLabel = "Chapter " ++ toString nn) := by
  induction l generalizing n with
  | nil => intro c hc; simp [assignGo] at hc
  | cons c₁ rest ih =>
    have hc₁ := hnone c₁ (List.mem_cons_self _ _)
    have hrest : ∀ c' ∈ rest, c'.chapterNumber = none :=
      fun c' hc' => hnone c' (List.mem_cons_of_mem _ hc')
    intro c hc
    simp only [assignGo] at hc
    cases hk : c₁.kind with
    | prologue =>
      rw [hk] at hc
      rcases List.mem_cons.mp hc with hc | hc
      · subst hc
        exact ⟨fun _ => ⟨hc₁, rfl⟩, fun h2 => ChapterKind.noConfusion h2,
          fun h2 => ChapterKind.noConfusion h2⟩
      · exact ih n hrest c hc
    | epilogue =>
      rw [hk] at hc
      rcases List.mem_cons.mp hc with hc | hc
      · subst hc
        exact ⟨fun h2 => ChapterKind.noConfusion h2, fun _ => ⟨hc₁, rfl⟩,
          fun h2 => ChapterKind.noConfusion h2⟩
      · exact ih n hrest c hc
    | chapter =>
      rw [hk] at hc
      rcases List.mem_cons.mp hc with hc | hc
      · subst hc
        exact ⟨fun h2 => ChapterKind.noConfusion h2, fun h2 => ChapterKind.noConfusion h2,
          fun _ => ⟨n + 1, rfl, rfl⟩⟩
      · exact ih (n + 1) hrest c hc

/-! ## Book and index invariants -/

theorem buildBook_chapters_map_file (env : Env) (p : PendingBook) :
    (buildBook env p).chapters.map (fun c => c.file) = allChapterFiles p := by
  show (assignGo 0 (mkChaptersFrom env p 0 (allChapterFiles p))).map (fun c => c.file) = _
  rw [assignGo_map_file, mkChaptersFrom_map_file]

theorem buildBook_chapters_map_index (env : Env) (p : PendingBook) :
    (buildBook env p).chapters.map (fun c => c.index) =
      List.range' 0 (allChapterFiles p).length := by
  show (assignGo 0 (mkChaptersFrom env p 0 (allChapterFiles p))).map (fun c => c.index) = _
  rw [assignGo_map_index, mkChaptersFrom_map_index]

theorem buildBook_chapters_length (env : Env) (p : PendingBook) :
    (buildBook env p).chapters.length = (allChapterFiles p).length := by
  have h := buildBook_chapters_map_file env p
  calc (buildBook env p).chapters.length
      = ((buildBook env p).chapters.map (fun c => c.file)).length := (List.length_map _ _).symm
    _ = (allChapterFiles p).length := by rw [h]

theorem buildBook_get_index (env : Env) (p : PendingBook) (i : Nat)
    (h : i < (buildBook env p).chapters.length) :
    ((buildBook env p).chapters.get ⟨i, h⟩).index = i := by
  have h1 : ((buildBook env p).chapters.map (fun c => c.index))[i]? =
      some ((buildBook env p).chapters.get ⟨i, h⟩).index := by
    rw [List.getElem?_map, List.getElem?_eq_getElem h]
    rfl
  rw [buildBook_chapters_map_index env p] at h1
  have hlen2 : i < (List.range' 0 (allChapterFiles p).length).length := by
    rw [List.length_range']
    rw [buildBook_chapters_length env p] at h
    exact h
  rw [List.getElem?_eq_getElem hlen2] at h1
  simp only [List.getElem_range'] at h1
  have h2 := Option.some.inj h1
  omega

theorem buildBook_getElem?_self (env : Env) (p : PendingBook) (c : ChapterEntry)
    (hc : c ∈ (buildBook env p).chapters) :
    (buildBook env p).chapters[c.index]? = some c := by
  rcases List.mem_iff_get.mp hc with ⟨⟨i, hi⟩, hget⟩
  have hidx : c.index = i := by
    rw [← hget]
    exact buildBook_get_index env p i hi
  rw [hidx]
  rw [List.getElem?_eq_getElem hi]
  rw [← hget]
  rfl

theorem buildBook_mem_info (env : Env) (p : PendingBook) (c : ChapterEntry)
    (hc : c ∈ (buildBook env p).chapters) : c.info = some c.file := by
  have hc' : c ∈ assignGo 0 (mkChaptersFrom env p 0 (allChapterFiles p)) := hc
  rcases assignGo_mem 0 _ c hc' with ⟨c₀, hc₀, hfile, _, _, hinfo, _⟩
  rcases mkChaptersFrom_mem env p 0 _ c₀ hc₀ with ⟨_, hinfo₀⟩
  rw [hinfo, hinfo₀, hfile]

theorem buildBook_mem_number_none (env : Env) (p : PendingBook) :
    ∀ c ∈ mkChaptersFrom env p 0 (allChapterFiles p), c.chapterNumber = none :=
  fun c hc => (mkChaptersFrom_mem env p 0 _ c hc).1

theorem buildIndex_books_mem (env : Env) {b : BookEntry}
    (h : b ∈ jsValues (buildIndex env).books) :
    ∃ p ∈ discoverPendingBooks env, b = buildBook env p := by
  rcases mem_jsValues h with ⟨k, hk⟩
  have hmem : (k, b) ∈ ((discoverPendingBooks env).map (buildBook env)).map
      (fun b => (b.file, b)) := by
    rcases mem_of_mem_jsSetAll hk with h' | h'
    · simp at h'
    · exact h'
  rcases List.mem_map.mp hmem with ⟨b', hb', heq⟩
  have hbb : b' = b := congrArg Prod.snd heq
  subst hbb
  rcases List.mem_map.mp hb' with ⟨p, hp, hbp⟩
  exact ⟨p, hp, hbp.symm⟩

theorem buildIndex_chapters_pair (env : Env) {k : String} {cr : ChapterRef}
    (h : (k, cr) ∈ (buildIndex env).chapters) :
    (∃ p ∈ discoverPendingBooks env, cr.book = buildBook env p) ∧
      cr.chapter ∈ cr.book.chapters ∧ k = cr.chapter.file := by
  have hmem : (k, cr) ∈ ((discoverPendingBooks env).map (buildBook env)).flatMap
      (fun b => b.chapters.map fun c => (c.file, ChapterRef.mk b c)) := by
    rcases mem_of_mem_jsSetAll h with h' | h'
    · simp at h'
    · exact h'
  rcases List.mem_flatMap.mp hmem with ⟨b, hb, hpair⟩
  rcases List.mem_map.mp hpair with ⟨c, hc, heq⟩
  have hk : k = c.file := (congrArg Prod.fst heq).symm
  have hcr : cr = ChapterRef.mk b c := (congrArg Prod.snd heq).symm
  subst hcr
  rcases List.mem_map.mp hb with ⟨p, hp, hbp⟩
  exact ⟨⟨p, hp, hbp.symm⟩, hc, hk⟩

theorem buildIndex_chapters_value (env : Env) {cr : ChapterRef}
    (h : cr ∈ jsValues (buildIndex env).chapters) :
    (∃ p ∈ discoverPendingBooks env, cr.book = buildBook env p) ∧
      cr.chapter ∈ cr.book.chapters := by
  rcases mem_jsValues h with ⟨k, hk⟩
  rcases buildIndex_chapters_pair env hk with ⟨h1, h2, _⟩
  exact ⟨h1, h2⟩

theorem buildIndex_chapters_info (env : Env) {cr : ChapterRef}
    (h : cr ∈ jsValues (buildIndex env).chapters) :
    cr.chapter.info = some cr.chapter.file := by
  rcases buildIndex_chapters_value env h with ⟨⟨p, _, hbp⟩, hc⟩
  rw [hbp] at hc
  exact buildBook_mem_info env p _ hc

theorem buildIndex_chapters_position (env : Env) {cr : ChapterRef}
    (h : cr ∈ jsValues (buildIndex env).chapters) :
    cr.book.chapters[cr.chapter.index]? = some cr.chapter := by
  rcases buildIndex_chapters_value env h with ⟨⟨p, _, hbp⟩, hc⟩
  rw [hbp] at hc ⊢
  exact buildBook_getElem?_self env p _ hc

theorem buildIndex_stages_value (env : Env) {st : StageEntry}
    (h : st ∈ jsValues (buildIndex env).stages) :
    ∃ cr ∈ jsValues (buildIndex env).chapters,
      st.book = cr.book ∧ st.chapter = cr.chapter := by
  rcases mem_jsValues h with ⟨k, hk⟩
  have hmem : (k, st) ∈ (jsValues (buildIndex env).chapters).flatMap stageRegistrations := by
    rcases mem_of_mem_jsSetAll hk with h' | h'
    · simp at h'
    · exact h'
  rcases List.mem_flatMap.mp hmem with ⟨cr, hcr, hpair⟩
  rcases List.mem_filterMap.mp hpair with ⟨s, _, hmatch⟩
  refine ⟨cr, hcr, ?_⟩
  cases hs2 : s.2 with
  | none => rw [hs2] at hmatch; simp at hmatch
  | some f =>
    rw [hs2] at hmatch
    simp only [Option.some_inj] at hmatch
    have hst : st = { file := f, book := cr.book, chapter := cr.chapter, stage := s.1 } :=
      (congrArg Prod.snd hmatch).symm
    rw [hst]
    exact ⟨rfl, rfl⟩

/-! ## Toolbar loop lemmas -/

theorem splitGo_length (w : String → ℚ) (labels : List String) (total : ℚ) :
    ∀ (m : Nat) (left right : List Nat) (cur : ℚ), left.length ≤ m →
      (splitGo w labels total left right cur).1.length +
        (splitGo w labels total left right cur).2.length =
      left.length + right.length := by
  intro m
  induction m with
  | zero =>
    intro left right cur hlen
    rw [splitGo]
    rw [dif_neg (by omega)]
  | succ m ih =>
    intro left right cur hlen
    rw [splitGo]
    by_cases hcond : cur < total / 2 ∧ 1 < left.length
    · rw [dif_pos hcond]
      cases hgl : left.getLast? with
      | none => rfl
      | some idx =>
        have hlne : left ≠ [] := by
          intro h0
          rw [h0] at hgl
          exact Option.noConfusion hgl
        have hl0 : left.length ≠ 0 := fun h0 => hlne (List.length_eq_zero.mp h0)
        have := ih left.dropLast (idx :: right) (cur + labelWidthAt w labels idx)
          (by simp only [List.length_dropLast]; omega)
        rw [this]
        simp only [List.length_dropLast, List.length_cons]
        omega
    · rw [dif_neg hcond]

theorem squeezeGoFuel_adequate (w : String → ℚ) (labels : List String) (o b c : ℚ) :
    ∀ (fuel : Nat) (l r : List Nat), l.length + r.length ≤ fuel →
      squeezeGoFuel w labels o b c fuel l r = some (squeezeGo w labels o b c l r) := by
  intro fuel
  induction fuel with
  | zero =>
    intro l r hlen
    have hl : l = [] := List.length_eq_zero.mp (by omega)
    have hr : r = [] := List.length_eq_zero.mp (by omega)
    subst hl
    subst hr
    rw [squeezeGoFuel, squeezeGo]
    by_cases hcond : c < widthSum w labels [] + widthSum w labels [] + o + b
    · rw [if_pos hcond, if_pos hcond, if_pos ⟨rfl, rfl⟩, dif_pos ⟨rfl, rfl⟩]
    · rw [if_neg hcond, if_neg hcond]
  | succ fuel ih =>
    intro l r hlen
    rw [squeezeGoFuel, squeezeGo]
    by_cases hcond : c < widthSum w labels l + widthSum w labels r + o + b
    · rw [if_pos hcond, if_pos hcond]
      by_cases hne : l = [] ∧ r = []
      · rw [if_pos hne, dif_pos hne]
      · rw [if_neg hne, dif_neg hne]
        by_cases hpull : squeezePullFromLeft w labels l r = true
        · rw [if_pos hpull, dif_pos hpull]
          apply ih
          have hlne : l ≠ [] := squeezePullFromLeft_true_ne_nil hne hpull
          have hl0 : l.length ≠ 0 := fun h0 => hlne (List.length_eq_zero.mp h0)
          simp only [List.length_dropLast]
          omega
        · rw [if_neg hpull, dif_neg hpull]
          apply ih
          have hrne : r ≠ [] :=
            squeezePullFromLeft_false_ne_nil hne (by simpa using hpull)
          have hr0 : r.length ≠ 0 := fun h0 => hrne (List.length_eq_zero.mp h0)
          simp only [List.length_drop]
          omega
    · rw [if_neg hcond, if_neg hcond]

theorem range_getLast?_succ (k : Nat) : (List.range (k + 1)).getLast? = some k := by
  rw [List.range_succ]
  exact List.getLast?_concat _

theorem range_dropLast_succ (k : Nat) : (List.range (k + 1)).dropLast = List.range k := by
  rw [List.range_succ]
  exact List.dropLast_concat

theorem range_drop_self (n : Nat) : (List.range n).drop n = [] := by
  have h := List.drop_length (List.range n)
  rw [List.length_range] at h
  exact h

theorem range_drop_cons (n k : Nat) (h : k < n) :
    k :: (List.range n).drop (k + 1) = (List.range n).drop k := by
  have hlt : k < (List.range n).length := by rw [List.length_range]; exact h
  rw [List.drop_eq_getElem_cons hlt, List.getElem_range]

theorem drop_range_eq_range' (n bb : Nat) (h : bb ≤ n) :
    (List.range n).drop bb = List.range' bb (n - bb) := by
  have h1 := List.range'_append 0 bb (n - bb) 1
  simp only [Nat.one_mul, Nat.zero_add] at h1
  have e1 : (n - bb) + bb = n := by omega
  rw [e1] at h1
  calc (List.range n).drop bb
      = (List.range' 0 bb ++ List.range' bb (n - bb)).drop bb := by
        rw [h1, ← List.range_eq_range']
    _ = (List.range' 0 bb ++ List.range' bb (n - bb)).drop (List.range' 0 bb).length := by
        rw [List.length_range']
    _ = List.range' bb (n - bb) := List.drop_left _ _

theorem splitGo_range (w : String → ℚ) (labels : List String) (total : ℚ) (n : Nat) :
    ∀ (m a : Nat) (cur : ℚ), a ≤ m → a ≤ n →
      ∃ a', a' ≤ a ∧
        splitGo w labels total (List.range a) ((List.range n).drop a) cur =
          (List.range a', (List.range n).drop a') := by
  intro m
  induction m with
  | zero =>
    intro a cur ham _
    have ha : a = 0 := by omega
    subst ha
    refine ⟨0, le_rfl, ?_⟩
    rw [splitGo]
    rw [dif_neg (by simp)]
  | succ m ih =>
    intro a cur ham han
    by_cases hcond : cur < total / 2 ∧ 1 < (List.range a).length
    · have ha1 : 1 ≤ a := by
        have h2 := hcond.2
        rw [List.length_range] at h2
        omega
      obtain ⟨k, rfl⟩ : ∃ k, a = k + 1 := ⟨a - 1, by omega⟩
      rw [splitGo]
      rw [dif_pos hcond]
      simp only [range_getLast?_succ, range_dropLast_succ]
      rw [range_drop_cons n k (by omega)]
      exact (ih k (cur + labelWidthAt w labels k) (by omega) (by omega)).imp
        (fun a' h => ⟨by omega, h.2⟩)
    · rw [splitGo]
      rw [dif_neg hcond]
      exact ⟨a, le_rfl, rfl⟩

theorem squeezeGo_range (w : String → ℚ) (labels : List String) (ov bu cw : ℚ) (n : Nat) :
    ∀ (m a bb : Nat), a ≤ bb → bb ≤ n → a + (n - bb) ≤ m →
      ∃ a' b', a' ≤ b' ∧ b' ≤ n ∧
        squeezeGo w labels ov bu cw (List.range a) ((List.range n).drop bb) =
          (List.range a', (List.range n).drop b') ∧
        (¬(cw < widthSum w labels (List.range a') +
            widthSum w labels ((List.range n).drop b') + ov + bu)
          ∨ (a' = 0 ∧ b' = n)) := by
  intro m
  induction m with
  | zero =>
    intro a bb hab hbn hm
    have ha : a = 0 := by omega
    have hbb : bb = n := by omega
    subst ha
    subst hbb
    refine ⟨0, bb, by omega, le_rfl, ?_, Or.inr ⟨rfl, rfl⟩⟩
    rw [squeezeGo]
    by_cases hcond : cw < widthSum w labels (List.range 0) +
        widthSum w labels ((List.range bb).drop bb) + ov + bu
    · rw [if_pos hcond, dif_pos ⟨rfl, range_drop_self bb⟩]
    · rw [if_neg hcond]
  | succ m ih =>
    intro a bb hab hbn hm
    by_cases hcond : cw < widthSum w labels (List.range a) +
        widthSum w labels ((List.range n).drop bb) + ov + bu
    · by_cases hne : List.range a = [] ∧ (List.range n).drop bb = []
      · have ha : a = 0 := by
          have h1 := congrArg List.length hne.1
          simpa using h1
        have hbb : bb = n := by
          have h2 := congrArg List.length hne.2
          simp only [List.length_drop, List.length_range, List.length_nil] at h2
          omega
        subst ha
        refine ⟨0, bb, by omega, hbn, ?_, Or.inr ⟨rfl, hbb⟩⟩
        rw [squeezeGo]
        rw [if_pos hcond, dif_pos hne]
      · rw [squeezeGo]
        rw [if_pos hcond, dif_neg hne]
        by_cases hpull : squeezePullFromLeft w labels (List.range a)
            ((List.range n).drop bb) = true
        · rw [dif_pos hpull]
          have hlne := squeezePullFromLeft_true_ne_nil hne hpull
          have ha1 : 1 ≤ a := by
            by_contra h0
            have ha0 : a = 0 := by omega
            subst ha0
            exact hlne rfl
          obtain ⟨k, rfl⟩ : ∃ k, a = k + 1 := ⟨a - 1, by omega⟩
          rw [range_dropLast_succ]
          exact ih k bb (by omega) hbn (by omega)
        · rw [dif_neg hpull]
          have hrne := squeezePullFromLeft_false_ne_nil hne (by simpa using hpull)
          have hbblt : bb < n := by
            by_contra h0
            have hbbn : bb = n := by omega
            subst hbbn
            exact hrne (range_drop_self bb)
          have hdd : ((List.range n).drop bb).drop 1 = (List.range n).drop (bb + 1) :=
            List.drop_drop 1 bb _
          rw [hdd]
          exact ih a (bb + 1) (by omega) (by omega) (by omega)
    · rw [squeezeGo]
      rw [if_neg hcond]
      exact ⟨a, bb, hab, hbn, rfl, Or.inl hcond⟩

theorem filter_visible_range (n a bb : Nat) (hab : a ≤ bb) (hbn : bb ≤ n) :
    (List.range n).filter (fun i => decide (i < a) || decide (bb ≤ i)) =
      List.range a ++ (List.range n).drop bb := by
  have h1 := List.range'_append 0 a (bb - a) 1
  simp only [Nat.one_mul, Nat.zero_add] at h1
  have e1 : (bb - a) + a = bb := by omega
  rw [e1] at h1
  have h2 := List.range'_append 0 bb (n - bb) 1
  simp only [Nat.one_mul, Nat.zero_add] at h2
  have e2 : (n - bb) + bb = n := by omega
  rw [e2] at h2
  have hsplit : List.range n =
      (List.range a ++ List.range' a (bb - a)) ++ List.range' bb (n - bb) := by
    rw [List.range_eq_range', ← h2, ← h1, List.range_eq_range']
  conv_lhs => rw [hsplit]
  rw [List.filter_append, List.filter_append]
  have hf1 : (List.range a).filter (fun i => decide (i < a) || decide (bb ≤ i)) =
      List.range a := by
    rw [List.filter_eq_self]
    intro x hx
    rw [List.mem_range] at hx
    simp [hx]
  have hf2 : (List.range' a (bb - a)).filter
      (fun i => decide (i < a) || decide (bb ≤ i)) = [] := by
    rw [List.filter_eq_nil_iff]
    intro x hx
    rw [List.mem_range'_1] at hx
    simp only [Bool.or_eq_true, decide_eq_true_eq, not_or]
    omega
  have hf3 : (List.range' bb (n - bb)).filter
      (fun i => decide (i < a) || decide (bb ≤ i)) = List.range' bb (n - bb) := by
    rw [List.filter_eq_self]
    intro x hx
    rw [List.mem_range'_1] at hx
    simp only [Bool.or_eq_true, decide_eq_true_eq]
    omega
  rw [hf1, hf2, hf3, List.append_nil]
  rw [drop_range_eq_range' n bb hbn]

/-! ## Claim theorems -/

/-- C1: for every book produced by `buildIndex`, chapter numbers are
assigned only to `chapter`-kind entries and, read off in sequence order,
form exactly the contiguous strictly increasing sequence `1..k`
(regardless of interleaved prologue/epilogue entries or dropped broken
references); prologue and epilogue entries have number `none` and labels
"Prologue"/"Epilogue", and each `chapter`-kind entry with number `n` has
label `"Chapter n"`. -/
theorem C1_chapter_numbering (env : Env) (book : BookEntry)
    (hb : book ∈ jsValues (buildIndex env).books) :
    ((book.chapters.filter fun c => decide (c.kind = ChapterKind.chapter)).map
        (fun c => c.chapterNumber) =
      (List.range' 1
        ((book.chapters.filter fun c => decide (c.kind = ChapterKind.chapter)).length)).map
        some)
    ∧ ∀ c ∈ book.chapters,
        (c.kind = ChapterKind.prologue →
          c.chapterNumber = none ∧ c.chapterLabel = "Prologue")
        ∧ (c.kind = ChapterKind.epilogue →
          c.chapterNumber = none ∧ c.chapterLabel = "Epilogue")
        ∧ (c.kind = ChapterKind.chapter →
          ∃ n, c.chapterNumber = some n ∧ c.chapterLabel = "Chapter " ++ toString n) := by
  rcases buildIndex_books_mem env hb with ⟨p, _, hbp⟩
  subst hbp
  constructor
  · have hthis := assignGo_numbers (mkChaptersFrom env p 0 (allChapterFiles p)) 0
      (buildBook_mem_number_none env p)
    have hchap : (buildBook env p).chapters =
        assignGo 0 (mkChaptersFrom env p 0 (allChapterFiles p)) := rfl
    rw [hchap]
    have hlen : ((assignGo 0 (mkChaptersFrom env p 0 (allChapterFiles p))).filter
        fun c => decide (c.kind = ChapterKind.chapter)).length =
        ((mkChaptersFrom env p 0 (allChapterFiles p)).filter
          fun c => decide (c.kind = ChapterKind.chapter)).length := by
      have h1 := congrArg List.length hthis
      simpa using h1
    rw [hlen, hthis]
  · intro c hc
    exact assignGo_labels _ 0 (buildBook_mem_number_none env p) c hc

/-- Witness for C1 on the concrete vault `envEx`. -/
theorem C1_chapter_numbering_witness :
    bookEx ∈ jsValues (buildIndex envEx).books ∧
    ((bookEx.chapters.filter fun c => decide (c.kind = ChapterKind.chapter)).map
        (fun c => c.chapterNumber) =
      (List.range' 1
        ((bookEx.chapters.filter fun c => decide (c.kind = ChapterKind.chapter)).length)).map
        some) :=
  ⟨by decide, (C1_chapter_numbering envEx bookEx (by decide)).1⟩

/-- C2: every book's chapter sequence is exactly the concatenation
[resolved prologue?, resolved chapter references in declared order,
resolved epilogue?] with absent/unresolvable entries dropped, and each
chapter entry's `index` equals its 0-based array offset in
`book.chapters`. -/
theorem C2_sequence_assembly (env : Env) (book : BookEntry)
    (hb : book ∈ jsValues (buildIndex env).books) :
    (∃ fm chapterLinks,
      env.fileCache book.file = some fm ∧
      fm.chapters = some chapterLinks ∧
      book.chapters.map (fun c => c.file) =
        (resolveWikiLink env fm.prologue book.file).toList
          ++ chapterLinks.filterMap (fun link => resolveWikiLink env (some link) book.file)
          ++ (resolveWikiLink env fm.epilogue book.file).toList)
    ∧ ∀ (i : Nat) (h : i < book.chapters.length),
        (book.chapters.get ⟨i, h⟩).index = i := by
  rcases buildIndex_books_mem env hb with ⟨p, hp, hbp⟩
  subst hbp
  constructor
  · rcases List.mem_filterMap.mp hp with ⟨file, _, hdisc⟩
    cases henv : env.fileCache file with
    | none =>
      simp only [henv] at hdisc
      exact Option.noConfusion hdisc
    | some fm =>
      simp only [henv] at hdisc
      cases hbt : fm.book_title with
      | none =>
        simp only [hbt] at hdisc
        exact Option.noConfusion hdisc
      | some title =>
        cases hch : fm.chapters with
        | none =>
          simp only [hbt, hch] at hdisc
          exact Option.noConfusion hdisc
        | some chapterLinks =>
          simp only [hbt, hch] at hdisc
          by_cases ht : title = ""
          · rw [if_pos ht] at hdisc
            exact Option.noConfusion hdisc
          · rw [if_neg ht] at hdisc
            have hp' := Option.some.inj hdisc
            have hbf : (buildBook env p).file = file := by
              rw [← hp']
              rfl
            refine ⟨fm, chapterLinks, ?_, hch, ?_⟩
            · rw [hbf, henv]
            · rw [hbf]
              rw [buildBook_chapters_map_file]
              rw [← hp']
              rfl
  · intro i h
    exact buildBook_get_index env p i h

/-- Witness for C2 on the concrete vault `envEx`: the first entry of the
assembled sequence carries positional index 0. -/
theorem C2_sequence_assembly_witness :
    bookEx ∈ jsValues (buildIndex envEx).books ∧
    (bookEx.chapters.get ⟨0, by decide⟩).index = 0 :=
  ⟨by decide, (C2_sequence_assembly envEx bookEx (by decide)).2 0 (by decide)⟩

/-- C3: `resolveToolbarModeForFile` over a freshly built index is total
with the documented precedence: stage-table hit wins and yields
`chapter-stage` with that stage; otherwise a chapter info document yields
`chapter-stage` with a synthesized `info` stage whose `file` is the
queried document itself; otherwise a book document yields the book
overview; otherwise `none`.  (The fourth declared variant `chapterInfo`
is never produced.) -/
theorem C3_resolver_totality (env : Env) (file : String) :
    (∃ st, jsGet (buildIndex env).stages file = some st ∧
      resolveToolbarModeForFile (some (buildIndex env)) file = ToolbarMode.chapterStage st)
    ∨ (jsGet (buildIndex env).stages file = none ∧
      ∃ cr, jsGet (buildIndex env).chapters file = some cr ∧
        resolveToolbarModeForFile (some (buildIndex env)) file =
          ToolbarMode.chapterStage
            { file := file, book := cr.book, chapter := cr.chapter,
              stage := ChapterStage.info })
    ∨ (jsGet (buildIndex env).stages file = none ∧
      jsGet (buildIndex env).chapters file = none ∧
      ∃ b, jsGet (buildIndex env).books file = some b ∧
        resolveToolbarModeForFile (some (buildIndex env)) file = ToolbarMode.bookInfo b)
    ∨ (jsGet (buildIndex env).stages file = none ∧
      jsGet (buildIndex env).chapters file = none ∧
      jsGet (buildIndex env).books file = none ∧
      resolveToolbarModeForFile (some (buildIndex env)) file = ToolbarMode.none) := by
  cases hst : jsGet (buildIndex env).stages file with
  | some st =>
    exact Or.inl ⟨st, rfl, by simp only [resolveToolbarModeForFile, hst]⟩
  | none =>
    cases hch : jsGet (buildIndex env).chapters file with
    | some cr =>
      refine Or.inr (Or.inl ⟨rfl, cr, rfl, ?_⟩)
      have hpair := mem_of_jsGet_eq_some hch
      have hval : cr ∈ jsValues (buildIndex env).chapters :=
        List.mem_map.mpr ⟨(file, cr), hpair, rfl⟩
      have hinfo := buildIndex_chapters_info env hval
      rcases buildIndex_chapters_pair env hpair with ⟨_, _, hkfile⟩
      simp only [resolveToolbarModeForFile, hst, hch]
      rw [hinfo]
      simp only [Option.getD_some]
      rw [← hkfile]
    | none =>
      cases hbk : jsGet (buildIndex env).books file with
      | some b =>
        exact Or.inr (Or.inr (Or.inl ⟨rfl, rfl, b, rfl, by
          simp only [resolveToolbarModeForFile, hst, hch, hbk]⟩))
      | none =>
        exact Or.inr (Or.inr (Or.inr ⟨rfl, rfl, rfl, by
          simp only [resolveToolbarModeForFile, hst, hch, hbk]⟩))

/-- C4: for every stage entry in the built index, `previous`/`next` are
computed by offsetting the chapter's positional index by ∓1 within the
owning book's full sequence — the chapter really sits at that position —
disabled out of bounds; in bounds the target is the neighbour's document
for the same stage kind as `stage.stage` (disabled when the neighbour
lacks it), so the first chapter's `previous` and the last chapter's
`next` are always disabled and neither field ever points at a different
stage kind's document. -/
theorem C4_adjacent_navigation (env : Env) (st : StageEntry)
    (hst : st ∈ jsValues (buildIndex env).stages) :
    st.book.chapters[st.chapter.index]? = some st.chapter
    ∧ (getNavigationTargets (some (buildIndex env)) st).previous =
        (match st.chapter.index with
         | 0 => NavigationTarget.disabled
         | j + 1 =>
           match (st.book.chapters[j]?).bind (fun nb => stageField nb st.stage) with
           | some f => NavigationTarget.file f
           | none => NavigationTarget.disabled)
    ∧ (getNavigationTargets (some (buildIndex env)) st).next =
        (match (st.book.chapters[st.chapter.index + 1]?).bind
            (fun nb => stageField nb st.stage) with
         | some f => NavigationTarget.file f
         | none => NavigationTarget.disabled)
    ∧ (st.chapter.index = 0 →
        (getNavigationTargets (some (buildIndex env)) st).previous = NavigationTarget.disabled)
    ∧ (st.chapter.index + 1 = st.book.chapters.length →
        (getNavigationTargets (some (buildIndex env)) st).next = NavigationTarget.disabled) := by
  have hpos : st.book.chapters[st.chapter.index]? = some st.chapter := by
    rcases buildIndex_stages_value env hst with ⟨cr, hcr, hbook, hchap⟩
    rw [hbook, hchap]
    exact buildIndex_chapters_position env hcr
  have hlt : st.chapter.index < st.book.chapters.length := by
    rcases List.getElem?_eq_some_iff.mp hpos with ⟨h, _⟩
    exact h
  have hprev : (getNavigationTargets (some (buildIndex env)) st).previous =
      (match st.chapter.index with
       | 0 => NavigationTarget.disabled
       | j + 1 =>
         match (st.book.chapters[j]?).bind (fun nb => stageField nb st.stage) with
         | some f => NavigationTarget.file f
         | none => NavigationTarget.disabled) := by
    show getAdjacentChapterTarget st.book st.chapter st.stage NavDirection.previous = _
    unfold getAdjacentChapterTarget
    cases hidx : st.chapter.index with
    | zero =>
      simp only [hidx]
      norm_num
    | succ j =>
      simp only [hidx]
      by_cases hj : j < st.book.chapters.length
      · rw [if_neg (by push_cast; omega)]
        have htn : (((j + 1 : Nat) : Int) + -1).toNat = j := by push_cast; omega
        rw [htn]
        rw [List.getElem?_eq_getElem hj]
        simp only [Option.bind_some]
        rfl
      · rw [if_pos (by push_cast; omega)]
        rw [List.getElem?_eq_none (by omega)]
        rfl
  have hnext : (getNavigationTargets (some (buildIndex env)) st).next =
      (match (st.book.chapters[st.chapter.index + 1]?).bind
          (fun nb => stageField nb st.stage) with
       | some f => NavigationTarget.file f
       | none => NavigationTarget.disabled) := by
    show getAdjacentChapterTarget st.book st.chapter st.stage NavDirection.next = _
    unfold getAdjacentChapterTarget
    by_cases hj : st.chapter.index + 1 < st.book.chapters.length
    · rw [if_neg (by push_cast; omega)]
      have htn : (((st.chapter.index : Int)) + 1).toNat = st.chapter.index + 1 := by omega
      rw [htn]
      rw [List.getElem?_eq_getElem hj]
      simp only [Option.bind_some]
      rfl
    · rw [if_pos (by push_cast; omega)]
      rw [List.getElem?_eq_none (by omega)]
      rfl
  refine ⟨hpos, hprev, hnext, ?_, ?_⟩
  · intro h0
    rw [hprev, h0]
  · intro hlast
    rw [hnext]
    rw [List.getElem?_eq_none (by omega)]
    rfl

/-- Witness for C4 on `envEx`: the single stage entry (c1's outline, at
position 1 of 4) has its neighbours lacking an outline stage, so both
directions are disabled. -/
theorem C4_adjacent_navigation_witness :
    stageEx ∈ jsValues (buildIndex envEx).stages ∧
    stageEx.book.chapters[stageEx.chapter.index]? = some stageEx.chapter :=
  ⟨by decide, (C4_adjacent_navigation envEx stageEx (by decide)).1⟩

/-- C6: one `buildIndex()` run against the cached `lastIndex` is atomic:
on enumeration failure nothing is published and the previous snapshot
stays in effect; on success the published state is exactly the fully
assembled snapshot (also the returned value) — never a partial result. -/
theorem C6_atomic_publish (e : IndexerEnv) (lastIdx : Option NovelIndex) :
    (e.files = none → runBuildIndex e lastIdx = (lastIdx, none))
    ∧ (∀ fs, e.files = some fs →
        runBuildIndex e lastIdx =
          (some (buildIndex (e.toEnv fs)), some (buildIndex (e.toEnv fs)))) := by
  constructor
  · intro h
    unfold runBuildIndex
    rw [h]
  · intro fs h
    unfold runBuildIndex
    rw [h]

/-- Witness for C6: a failing enumeration leaves the (empty) previous
state untouched and returns nothing. -/
theorem C6_atomic_publish_witness :
    runBuildIndex envFailEx none = (none, none) :=
  (C6_atomic_publish envFailEx none).1 rfl

/-- C8: in the stage table of a built index every document path is bound
at most once (keys are nodup), and the binding for a path is exactly the
LAST registration with that path in construction order — chapters in
map-insertion order, and per chapter outline, then draft, then final —
with no error or detection for collisions. -/
theorem C8_stage_last_write_wins (env : Env) (path : String) :
    (jsKeys (buildIndex env).stages).Nodup
    ∧ jsGet (buildIndex env).stages path =
        (((jsValues (buildIndex env).chapters).flatMap stageRegistrations).filter
            (fun kv => decide (kv.1 = path))).getLast?.map (fun kv => kv.2) := by
  constructor
  · exact jsKeys_jsSetAll_nodup (by simp [jsKeys])
  · show jsGet (jsSetAll []
        ((jsValues (buildIndex env).chapters).flatMap stageRegistrations)) path = _
    rw [jsGet_jsSetAll]
    cases hl : (((jsValues (buildIndex env).chapters).flatMap stageRegistrations).filter
        (fun kv => decide (kv.1 = path))).getLast? with
    | none => rfl
    | some kv => rfl

/-- C9: every stage entry reachable from a built index — a stage-table
value or a mode synthesized by `resolveToolbarModeForFile` — yields
navigation targets whose `bookInfo` and `chapterInfo` are `file` targets
(never disabled): construction always sets a chapter's `info` to its own
document and a book's `file` to its backing document. -/
theorem C9_info_targets_present (env : Env) (st : StageEntry)
    (hst : st ∈ jsValues (buildIndex env).stages ∨
      ∃ f, resolveToolbarModeForFile (some (buildIndex env)) f =
        ToolbarMode.chapterStage st) :
    (getNavigationTargets (some (buildIndex env)) st).bookInfo =
      NavigationTarget.file st.book.file
    ∧ (getNavigationTargets (some (buildIndex env)) st).chapterInfo =
      NavigationTarget.file st.chapter.file := by
  have hinfo : st.chapter.info = some st.chapter.file := by
    rcases hst with hst | ⟨f, hres⟩
    · rcases buildIndex_stages_value env hst with ⟨cr, hcr, _, hchap⟩
      rw [hchap]
      exact buildIndex_chapters_info env hcr
    · simp only [resolveToolbarModeForFile] at hres
      cases hjs : jsGet (buildIndex env).stages f with
      | some st' =>
        rw [hjs] at hres
        simp only [ToolbarMode.chapterStage.injEq] at hres
        subst hres
        have hval : st' ∈ jsValues (buildIndex env).stages :=
          List.mem_map.mpr ⟨(f, st'), mem_of_jsGet_eq_some hjs, rfl⟩
        rcases buildIndex_stages_value env hval with ⟨cr, hcr, _, hchap⟩
        rw [hchap]
        exact buildIndex_chapters_info env hcr
      | none =>
        rw [hjs] at hres
        cases hjc : jsGet (buildIndex env).chapters f with
        | some cr =>
          rw [hjc] at hres
          simp only [ToolbarMode.chapterStage.injEq] at hres
          have hval : cr ∈ jsValues (buildIndex env).chapters :=
            List.mem_map.mpr ⟨(f, cr), mem_of_jsGet_eq_some hjc, rfl⟩
          have := buildIndex_chapters_info env hval
          rw [← hres]
          exact this
        | none =>
          rw [hjc] at hres
          cases hjb : jsGet (buildIndex env).books f with
          | some b =>
            rw [hjb] at hres
            exact ToolbarMode.noConfusion hres
          | none =>
            rw [hjb] at hres
            exact ToolbarMode.noConfusion hres
  constructor
  · rfl
  · show getStageTarget st.chapter ChapterStage.info = _
    unfold getStageTarget
    show (match st.chapter.info with
      | some f => NavigationTarget.file f
      | none => NavigationTarget.disabled) = _
    rw [hinfo]

/-- Witness for C9 on `envEx`: the outline stage of c1. -/
theorem C9_info_targets_present_witness :
    (stageEx ∈ jsValues (buildIndex envEx).stages ∨
      ∃ f, resolveToolbarModeForFile (some (buildIndex envEx)) f =
        ToolbarMode.chapterStage stageEx) ∧
    (getNavigationTargets (some (buildIndex envEx)) stageEx).chapterInfo =
      NavigationTarget.file stageEx.chapter.file :=
  ⟨Or.inl (by decide), (C9_info_targets_present envEx stageEx (Or.inl (by decide))).2⟩

/-- C7 counterexample: with no index built (`lastIndex = none`),
`getNavigationTargets` does not return disabled targets — for this
concrete stage, `chapterInfo` is a file target. -/
theorem C7_counterexample :
    (getNavigationTargets none stageNoIndexEx).chapterInfo ≠ NavigationTarget.disabled := by
  decide

/-- C7 (amended): if a query arrives before the first index scan,
`resolveToolbarModeForFile` returns the `none` mode; `getNavigationTargets`
never reads the cached index (the TS method only logs a warning when it
is null) and computes the same targets from the given stage's object
graph regardless of whether an index exists, so it does not fault — and
since the resolver is the only producer of `StageEntry` values and
yields no stage pre-index, no target query can be reached through the
public query path before the first build. -/
theorem C7_no_index_behavior (f : String) (li : Option NovelIndex) (st : StageEntry) :
    resolveToolbarModeForFile none f = ToolbarMode.none
    ∧ getNavigationTargets none st = getNavigationTargets li st :=
  ⟨rfl, rfl⟩

/-- C10: the squeeze loop terminates within `labels.length` removal
iterations — each iteration drops exactly one index from the left or
right visible list — so running `calculateSqueeze` with a fuel budget of
`labels.length` loop steps already yields the (total) function's
result. -/
theorem C10_squeeze_termination (w : String → ℚ) (labels : List String)
    (containerWidth : ℚ) :
    calculateSqueezeFuel w labels containerWidth labels.length =
      some (calculateSqueeze w labels containerWidth) := by
  simp only [calculateSqueezeFuel, calculateSqueeze]
  by_cases hfit : (labels.map w).sum + 10 ≤ containerWidth
  · rw [if_pos hfit, if_pos hfit]
  · rw [if_neg hfit, if_neg hfit]
    have hsplit := splitGo_length w labels ((labels.map w).sum)
      (List.range labels.length).length (List.range labels.length) [] 0 le_rfl
    have hlen : (splitGo w labels ((labels.map w).sum)
          (List.range labels.length) [] 0).1.length +
        (splitGo w labels ((labels.map w).sum)
          (List.range labels.length) [] 0).2.length ≤ labels.length := by
      rw [hsplit]
      simp
    rw [squeezeGoFuel_adequate w labels (w "__overflow__") 10 containerWidth
      labels.length _ _ hlen]

/-- C5: if the total natural width plus the 10px safety buffer fits the
container, `calculateSqueeze` hides nothing and shows no overflow
button; otherwise it shows the overflow button and returns one
contiguous hidden range `[hideStart, hideEnd]` (both ends present or
both absent) such that the visible buttons' width plus the overflow
button's width plus the buffer fits the container, or the hidden range
has consumed the whole sequence. -/
theorem C5_squeeze_layout (w : String → ℚ) (labels : List String) (cw : ℚ) :
    ((labels.map w).sum + 10 ≤ cw →
      calculateSqueeze w labels cw =
        { hideStart := none, hideEnd := none, showOverflow := false })
    ∧ (¬((labels.map w).sum + 10 ≤ cw) →
      (calculateSqueeze w labels cw).showOverflow = true
      ∧ ((calculateSqueeze w labels cw).hideStart.isSome ↔
          (calculateSqueeze w labels cw).hideEnd.isSome)
      ∧ (visibleWidth w labels (calculateSqueeze w labels cw) + w "__overflow__" + 10 ≤ cw
        ∨ ∀ i < labels.length, isHiddenIdx (calculateSqueeze w labels cw) i = true)) := by
  constructor
  · intro hfit
    simp only [calculateSqueeze]
    rw [if_pos hfit]
  · intro hfit
    obtain ⟨a0, ha0, hsplit⟩ :
        ∃ a0, a0 ≤ labels.length ∧
          splitGo w labels ((labels.map w).sum) (List.range labels.length) [] 0 =
            (List.range a0, (List.range labels.length).drop a0) := by
      rcases splitGo_range w labels ((labels.map w).sum) labels.length labels.length
        labels.length 0 le_rfl le_rfl with ⟨a1, ha1, heq⟩
      rw [range_drop_self] at heq
      exact ⟨a1, by omega, heq⟩
    obtain ⟨a', b', hab, hbn, heq2, hpost⟩ :=
      squeezeGo_range w labels (w "__overflow__") 10 cw labels.length labels.length
        a0 a0 le_rfl ha0 (by omega)
    have hcalc : calculateSqueeze w labels cw =
        (if a' < b' then
          { hideStart := some (a' : Int), hideEnd := some ((b' : Int) - 1),
            showOverflow := true }
         else
          { hideStart := none, hideEnd := none, showOverflow := true }) := by
      simp only [calculateSqueeze]
      rw [if_neg hfit]
      simp only [hsplit]
      rw [heq2]
      rcases Nat.eq_zero_or_pos a' with ha'0 | ha'pos
      · subst ha'0
        simp only [List.range_zero, List.getLast?_nil]
        by_cases hblt : b' < labels.length
        · rw [← range_drop_cons labels.length b' hblt]
          simp only [List.head?_cons]
          by_cases hord : 0 < b'
          · rw [if_pos hord, if_pos (by omega), if_pos (by omega)]
            simp
          · rw [if_neg hord, if_neg (by omega), if_neg (by omega)]
        · have hbe : b' = labels.length := by omega
          rw [hbe, range_drop_self]
          simp only [List.head?_nil]
          by_cases hord : 0 < labels.length
          · rw [if_pos hord, if_pos (by omega), if_pos (by omega)]
            simp
          · rw [if_neg hord, if_neg (by omega), if_neg (by omega)]
      · obtain ⟨k, rfl⟩ : ∃ k, a' = k + 1 := ⟨a' - 1, by omega⟩
        simp only [range_getLast?_succ]
        by_cases hblt : b' < labels.length
        · rw [← range_drop_cons labels.length b' hblt]
          simp only [List.head?_cons]
          by_cases hord : k + 1 < b'
          · rw [if_pos hord, if_pos (by omega), if_pos (by omega)]
            simp only [SqueezeResult.mk.injEq, Option.some.injEq]
            exact ⟨by push_cast; ring, trivial, trivial⟩
          · rw [if_neg hord, if_neg (by omega), if_neg (by omega)]
        · have hbe : b' = labels.length := by omega
          rw [hbe, range_drop_self]
          simp only [List.head?_nil]
          by_cases hord : k + 1 < labels.length
          · rw [if_pos hord, if_pos (by omega), if_pos (by omega)]
            simp only [SqueezeResult.mk.injEq, Option.some.injEq]
            exact ⟨by push_cast; ring, trivial, trivial⟩
          · rw [if_neg hord, if_neg (by omega), if_neg (by omega)]
    refine ⟨?_, ?_, ?_⟩
    · rw [hcalc]
      by_cases h : a' < b'
      · rw [if_pos h]
      · rw [if_neg h]
    · rw [hcalc]
      by_cases h : a' < b'
      · rw [if_pos h]
        simp
      · rw [if_neg h]
    · rcases hpost with hfits | ⟨ha'0, hb'n⟩
      · left
        have hvis : visibleWidth w labels (calculateSqueeze w labels cw) =
            widthSum w labels (List.range a') +
              widthSum w labels ((List.range labels.length).drop b') := by
          rw [hcalc]
          by_cases h : a' < b'
          · rw [if_pos h]
            show widthSum w labels ((List.range labels.length).filter _) = _
            have hpred : ∀ i ∈ List.range labels.length,
                (!(isHiddenIdx
                  { hideStart := some (a' : Int), hideEnd := some ((b' : Int) - 1),
                    showOverflow := true } i)) =
                (decide (i < a') || decide (b' ≤ i)) := by
              intro i _
              simp only [isHiddenIdx, Bool.true_and, Bool.not_and]
              rw [← decide_not, ← decide_not]
              have e1 : decide (¬((a' : Int) ≤ (i : Int))) = decide (i < a') :=
                decide_eq_decide.mpr (by omega)
              have e2 : decide (¬((i : Int) ≤ (b' : Int) - 1)) = decide (b' ≤ i) :=
                decide_eq_decide.mpr (by omega)
              rw [e1, e2]
            rw [List.filter_congr hpred,
              filter_visible_range labels.length a' b' hab hbn]
            show ((List.range a' ++ (List.range labels.length).drop b').map
              (labelWidthAt w labels)).sum = _
            rw [List.map_append, List.sum_append]
            rfl
          · rw [if_neg h]
            have ha'b' : a' = b' := by omega
            show widthSum w labels ((List.range labels.length).filter _) = _
            have hpred : ∀ i ∈ List.range labels.length,
                (!(isHiddenIdx
                  { hideStart := none, hideEnd := none,
                    showOverflow := true } i)) =
                (decide (i < a') || decide (b' ≤ i)) := by
              intro i _
              simp only [isHiddenIdx, Bool.true_and, Bool.not_false]
              symm
              rw [Bool.or_eq_true, decide_eq_true_eq, decide_eq_true_eq]
              omega
            rw [List.filter_congr hpred,
              filter_visible_range labels.length a' b' hab hbn]
            show ((List.range a' ++ (List.range labels.length).drop b').map
              (labelWidthAt w labels)).sum = _
            rw [List.map_append, List.sum_append]
            rfl
        rw [hvis]
        have := not_lt.mp hfits
        linarith
      · right
        intro i hi
        subst ha'0
        subst hb'n
        rw [hcalc]
        rw [if_pos (by omega)]
        simp only [isHiddenIdx, Bool.true_and]
        rw [Bool.and_eq_true, decide_eq_true_eq, decide_eq_true_eq]
        omega

/-- Witness for C5: two constant-width buttons in a wide container are
left fully visible with no overflow button. -/
theorem C5_squeeze_layout_witness :
    ((["ch1", "ch2"].map widthEx).sum + 10 ≤ 100) ∧
    calculateSqueeze widthEx ["ch1", "ch2"] 100 =
      { hideStart := none, hideEnd := none, showOverflow := false } :=
  ⟨by norm_num [widthEx], (C5_squeeze_layout widthEx ["ch1", "ch2"] 100).1
    (by norm_num [widthEx])⟩

end NovelNavigator
